import Mathlib

/-!
Verification of the distinct-value counting core
(`src/AggregateFunctions/AggregateFunctionUniq.h`).

The development shallowly embeds the key encoders of `detail::OneAdder::add`
and `detail::AggregateFunctionUniqTraits::hash` (which are in the source
header) over `Nat` with explicit reduction modulo `2 ^ 64`, and models the
estimator containers (`HashSet`, `UniquesHashSet`,
`HyperLogLogWithSmallSetOptimization`) and the factory validation, which the
header only includes, from the specification.
-/

namespace ClickHouseUniq

/-- Reduction modulo `2 ^ 64`, the implicit truncation of `UInt64` arithmetic. -/
def mask64 (x : Nat) : Nat := x % 2 ^ 64

/-- Modular addition on 64 bits. -/
def add64 (a b : Nat) : Nat := (a + b) % 2 ^ 64

/-- Modular multiplication on 64 bits. -/
def mul64 (a b : Nat) : Nat := (a * b) % 2 ^ 64

/-- Rotate a 64-bit value left by `b` bits (for `0 < b < 64`). -/
def rotl64 (x b : Nat) : Nat := (x <<< b) % 2 ^ 64 ||| x >>> (64 - b)

/-- Little-endian byte-list decoding: byte 0 is the least significant. -/
def fromLEBytes : List Nat → Nat
  | [] => 0
  | b :: bs => b + 256 * fromLEBytes bs

/-- Little-endian decomposition of `x` into exactly `n` bytes. -/
def toLEBytes : Nat → Nat → List Nat
  | 0, _ => []
  | n + 1, x => x % 256 :: toLEBytes n (x / 256)

/-- The 16-byte zero-padded buffer produced by the `_mm_shuffle_epi8` masks of
`detail::OneAdder::add` (lines 202-225): bytes `0 ≤ i < s.length` are copied,
the remaining bytes up to 16 are zero. -/
def pad16 (s : List Nat) : List Nat := (s ++ List.replicate 16 0).take 16

/-- Low 64 bits of the 16-byte buffer (bytes 0..7, little endian), the value
stored into `key.low` by `_mm_storeu_si128`. -/
def low16 (s : List Nat) : Nat := fromLEBytes ((pad16 s).take 8)

/-- High 64 bits of the 16-byte buffer (bytes 8..15, little endian), the value
stored into `key.high` by `_mm_storeu_si128`. -/
def high16 (s : List Nat) : Nat := fromLEBytes ((pad16 s).drop 8)

/-- The source's `UInt128` (a pair of `UInt64` halves, `low` first). -/
structure UInt128 where
  low : Nat
  high : Nat
  deriving DecidableEq, Repr

/-- First multiplier of the finalizing mix (line 231). -/
def mixC1 : Nat := 0xff51afd7ed558ccd

/-- Second multiplier of the finalizing mix (line 236). -/
def mixC2 : Nat := 0xc4ceb9fe1a85ec53

/-- One xor-shift step of the finalizing mix (`x ^= x >> 33`). -/
def mixStep (x : Nat) : Nat := x ^^^ x >>> 33

/-- The "very light bijective hashing" applied to the low half of an embedded
key (lines 230-237):
`low ^= low >> 33; low *= C1; low ^= high; low ^= low >> 33; low *= C2;
low ^= low >> 33`. -/
def embedMix (low high : Nat) : Nat :=
  mixStep (mul64 (mixStep (mul64 (mixStep low) mixC1 ^^^ high)) mixC2)

/-- Modelled from the spec: internal state of `SipHash` (`Common/SipHash.h`,
not under `src/`). The spec only requires "a 128-bit cryptographic hash of the
full byte content"; we fix the published SipHash-2-4 construction with zero
key as the concrete digest. -/
structure SipState where
  v0 : Nat
  v1 : Nat
  v2 : Nat
  v3 : Nat
  deriving DecidableEq, Repr

/-- Modelled from the spec: one SipHash mixing round. -/
def sipRound (s : SipState) : SipState :=
  let a0 := add64 s.v0 s.v1
  let a1 := rotl64 s.v1 13 ^^^ a0
  let a0 := rotl64 a0 32
  let a2 := add64 s.v2 s.v3
  let a3 := rotl64 s.v3 16 ^^^ a2
  let a0 := add64 a0 a3
  let a3 := rotl64 a3 21 ^^^ a0
  let a2 := add64 a2 a1
  let a1 := rotl64 a1 17 ^^^ a2
  let a2 := rotl64 a2 32
  ⟨a0, a1, a2, a3⟩

/-- Modelled from the spec: four SipHash rounds. -/
def sipRound4 (s : SipState) : SipState := sipRound (sipRound (sipRound (sipRound s)))

/-- Modelled from the spec: absorb one 64-bit message word. -/
def sipCompress (s : SipState) (w : Nat) : SipState :=
  let s1 := sipRound (sipRound { s with v3 := s.v3 ^^^ w }) ;
  { s1 with v0 := s1.v0 ^^^ w }

/-- Modelled from the spec: split a byte stream of original length `len` into
64-bit little-endian words; the final (partial) word carries `len % 256` in
its top byte. -/
def sipWords (len : Nat) : List Nat → List Nat
  | b0 :: b1 :: b2 :: b3 :: b4 :: b5 :: b6 :: b7 :: rest =>
    fromLEBytes [b0, b1, b2, b3, b4, b5, b6, b7] :: sipWords len rest
  | rest => [fromLEBytes rest + len % 256 * 2 ^ 56]

/-- SipHash initialization constant "somepseu". -/
def sipK0 : Nat := 0x736f6d6570736575

/-- SipHash initialization constant "dorandom". -/
def sipK1 : Nat := 0x646f72616e646f6d

/-- SipHash initialization constant "lygenera". -/
def sipK2 : Nat := 0x6c7967656e657261

/-- SipHash initialization constant "tedbytes". -/
def sipK3 : Nat := 0x7465646279746573

/-- Modelled from the spec: the 128-bit digest `SipHash::get128` used by the
long-string exact path ("compute a 128-bit cryptographic hash of the full
byte content"). -/
def sipHash128Bytes (bs : List Nat) : UInt128 :=
  let s0 : SipState := ⟨sipK0, sipK1 ^^^ 0xee, sipK2, sipK3⟩
  let s1 := (sipWords bs.length bs).foldl sipCompress s0
  let s2 := sipRound4 { s1 with v2 := s1.v2 ^^^ 0xee }
  let lowOut := s2.v0 ^^^ s2.v1 ^^^ s2.v2 ^^^ s2.v3
  let s3 := sipRound4 { s2 with v1 := s2.v1 ^^^ 0xdd }
  ⟨lowOut, s3.v0 ^^^ s3.v1 ^^^ s3.v2 ^^^ s3.v3⟩

/-- Modelled from the spec: the 64-bit digest `sipHash64` used by
`AggregateFunctionUniqTraits::hash` on 128-bit-wide values ("a fixed
cryptographic 64-bit digest"). -/
def sipHash64Bytes (bs : List Nat) : Nat :=
  let s0 : SipState := ⟨sipK0, sipK1, sipK2, sipK3⟩
  let s1 := (sipWords bs.length bs).foldl sipCompress s0
  let s2 := sipRound4 { s1 with v2 := s1.v2 ^^^ 0xff }
  s2.v0 ^^^ s2.v1 ^^^ s2.v2 ^^^ s2.v3

/-- Modelled from the spec: `sipHash64` of a 128-bit value, fed its 16
little-endian bytes. -/
def sipHash64U128 (lo hi : Nat) : Nat := sipHash64Bytes (toLEBytes 8 lo ++ toLEBytes 8 hi)

/-- The tag bit set on hashed (long-string) keys (line 246):
`key.high |= 0x8000000000000000`. -/
def tagBit : Nat := 0x8000000000000000

/-- The uniqExact string key encoder, SSSE3 fast path of
`detail::OneAdder::add` (lines 190-251): a string of at most 15 bytes is
copied into a 16-byte zero-padded buffer whose low half is then mixed
bijectively; a longer string gets its 128-bit hash with the top bit of the
high half forced to one. -/
def uniqExactStringKeySSSE3 (s : List Nat) : UInt128 :=
  if s.length ≤ 15 then
    ⟨embedMix (low16 s) (high16 s), high16 s⟩
  else
    let h := sipHash128Bytes s
    ⟨h.low, h.high ||| tagBit⟩

/-- The uniqExact string key encoder when `__SSSE3__` is not defined
(lines 190-251 with the preprocessor conditionals removed): every string,
short or long, is sent through the 128-bit hash, and the tag-bit line
(guarded by the same conditional) is not compiled. -/
def uniqExactStringKeyPortable (s : List Nat) : UInt128 :=
  sipHash128Bytes s

/-- The value domain handled by `AggregateFunctionUniqTraits::hash`
(lines 136-153): an integer type of width at most 64 bits (the value is kept
already reduced into its two's-complement `UInt64` image by the column
accessor, as in `ColumnVector<T>::getElement`), a `Float32`/`Float64` carried
by its bit pattern, or a 128-bit value given as two 64-bit halves. -/
inductive NumVal where
  | intv (v : Nat) : NumVal
  | f32 (bits : Nat) : NumVal
  | f64 (bits : Nat) : NumVal
  | u128 (lo hi : Nat) : NumVal
  deriving DecidableEq, Repr

/-- Embedding of `detail::AggregateFunctionUniqTraits::hash` (lines 136-153): a 128-bit
value goes through `sipHash64`; a float is reinterpreted (`ext::bit_cast`,
a byte copy into a zero-initialized `UInt64`) as its bit pattern; any other
integer of at most 64 bits is returned as its value converted to `UInt64`. -/
def uniqTraitsHash : NumVal → Nat
  | .u128 lo hi => sipHash64U128 lo hi
  | .f32 bits => bits
  | .f64 bits => bits
  | .intv v => v % 2 ^ 64

/-! ### Exact estimator (uniqExact)

The container behind `AggregateFunctionUniqExactData` is
`HashSet` (`Common/HashTable/HashSet.h`), which is not under `src/`; per the
spec (§4.4) it is an open-addressed set of surrogate keys whose `insert` is a
no-op on a present key, whose `merge` is true set union and whose `size` is
the exact element count.  We model it as a `Finset` of keys. -/

/-- Modelled from the spec: facade `add` for `uniqExact` over a string column
composed with the in-source encoder: encode the row (lines 186-251), then
insert the key into the set (line 250). -/
def exactStringAdd (st : Finset UInt128) (s : List Nat) : Finset UInt128 :=
  insert (uniqExactStringKeySSSE3 s) st

/-- Feeding a whole sequence of string rows through `add` (line 277). -/
def exactStringAddAll (st : Finset UInt128) (rows : List (List Nat)) : Finset UInt128 :=
  rows.foldl exactStringAdd st

/-- Modelled from the spec: `OneAdder` exact path for a non-string column
(line 182) — the raw column value itself is inserted, no hash is applied. -/
def exactNumAdd (st : Finset Nat) (v : Nat) : Finset Nat := insert v st

/-- Feeding a whole sequence of numeric rows through `add`. -/
def exactNumAddAll (st : Finset Nat) (xs : List Nat) : Finset Nat :=
  xs.foldl exactNumAdd st

/-- Modelled from the spec: facade `merge` (lines 280-283) for the exact
estimator — `this->data(place).set.merge(rhs.set)`, i.e. set union. -/
def exactMerge {α : Type} [DecidableEq α] (a b : Finset α) : Finset α := a ∪ b

/-- Modelled from the spec: facade `insertResultInto`/`finalize`
(lines 295-298) — the estimator's exact element count. -/
def exactSize {α : Type} (a : Finset α) : Nat := a.card

/-- Encoding of a well-formed key (`low < 2 ^ 64`) as one number, used to give
keys a serialization order. -/
def keyEncode (k : UInt128) : Nat := k.low + 2 ^ 64 * k.high

/-- Inverse of `keyEncode`. -/
def keyDecode (n : Nat) : UInt128 := ⟨n % 2 ^ 64, n / 2 ^ 64⟩

/-- Modelled from the spec: exact-estimator serialization (§4.4) — the
element count followed by all keys (here in increasing `keyEncode` order,
standing for the unspecified table order). -/
def exactSerialize (st : Finset UInt128) : List Nat :=
  st.card :: (st.image keyEncode).sort (· ≤ ·)

/-- Modelled from the spec: exact-estimator deserialization (§4.4) —
reconstruct the full key set from the serialized keys. -/
def exactDeserialize (l : List Nat) : Finset UInt128 :=
  match l with
  | _ :: keys => (keys.map keyDecode).toFinset
  | [] => ∅

/-! ### Sampling estimator ("uniq")

`UniquesHashSet` (`AggregateFunctions/UniquesHashSet.h`) is not under `src/`.
Per the spec (§3, §4.2) its state is a retained set of 64-bit hashes plus a
skip degree; a retained hash must have its low `skip_degree` bits zero. -/

/-- Modelled from the spec: the state of the sampling estimator. -/
structure SamplingState where
  skipDegree : Nat
  retained : Finset Nat
  deriving DecidableEq

/-- Modelled from the spec: the capacity bound that triggers raising the skip
degree ("never exceed ~2^N memory"). -/
def samplingMaxSize : Nat := 65536

/-- A fresh (zero-initialized) sampling state. -/
def samplingEmpty : SamplingState := ⟨0, ∅⟩

/-- Modelled from the spec (§4.2): `insert(hash)` — skip the hash if it fails
the current skip-degree mask; otherwise retain it, and if the retained count
would exceed the capacity bound, raise the skip degree by one bit and evict
entries failing the new mask. -/
def samplingInsert (st : SamplingState) (h : Nat) : SamplingState :=
  if h % 2 ^ st.skipDegree = 0 then
    let r := insert h st.retained
    if samplingMaxSize < r.card then
      ⟨st.skipDegree + 1, r.filter fun x => x % 2 ^ (st.skipDegree + 1) = 0⟩
    else
      ⟨st.skipDegree, r⟩
  else st

/-- Modelled from the spec (§4.2): `merge(other)` — move both sides to the
coarser (larger) skip degree, evict entries that no longer satisfy it, and
keep the union of the surviving retained sets. -/
def samplingMerge (a b : SamplingState) : SamplingState :=
  ⟨max a.skipDegree b.skipDegree,
   (a.retained ∪ b.retained).filter fun x => x % 2 ^ max a.skipDegree b.skipDegree = 0⟩

/-- Modelled from the spec (§4.2): `size()` — the exact retained count while
sampling is inactive (skip degree zero), otherwise the bias-corrected
estimate `retained_count / sampling_probability` with probability
`2 ^ -skip_degree`. -/
def samplingSize (st : SamplingState) : Nat :=
  if st.skipDegree = 0 then st.retained.card else st.retained.card * 2 ^ st.skipDegree

/-- Modelled from the spec (§4.2): serialization — skip degree, retained
count, then the retained hashes. -/
def samplingSerialize (st : SamplingState) : List Nat :=
  st.skipDegree :: st.retained.card :: st.retained.sort (· ≤ ·)

/-- Modelled from the spec (§4.2): deserialization — reconstruct the exact
retained set and the skip degree. -/
def samplingDeserialize (l : List Nat) : SamplingState :=
  match l with
  | d :: _ :: hashes => ⟨d, hashes.toFinset⟩
  | _ => samplingEmpty

/-! ### Hybrid estimator ("uniqHLL12")

`HyperLogLogWithSmallSetOptimization<_, 16, 12>` is not under `src/`.  Per
the source template arguments and the spec (§3, §4.3): a small exact set of
at most 16 hashes, upgrading one-way to 2^12 = 4096 max-rank registers. -/

/-- The number of register buckets, `2 ^ 12`. -/
def hllBuckets : Nat := 4096

/-- The small-set capacity, the `16` in the source's template arguments. -/
def hllSmallCap : Nat := 16

/-- Number of binary digits of `x` (0 for 0). -/
def bitLen (x : Nat) : Nat := if x = 0 then 0 else Nat.log2 x + 1

/-- Modelled from the spec (§4.3): the register value contributed by one
hash — one plus the leading-zero count of the bits remaining after the
12-bit bucket index is removed. -/
def hllRank (h : Nat) : Nat := 52 - bitLen (h / hllBuckets) + 1

/-- Modelled from the spec (§4.3): the register array obtained by replaying a
set of hashes — bucket `b` holds the maximum rank among the hashes whose low
12 bits equal `b`. -/
def regsOf (s : Finset Nat) : List Nat :=
  (List.range hllBuckets).map fun b => (s.filter fun h => h % hllBuckets = b).sup hllRank

/-- Bucket-wise maximum of two register arrays. -/
def regsMax (r1 r2 : List Nat) : List Nat := List.zipWith max r1 r2

/-- Modelled from the spec: the tagged-union state of the hybrid estimator —
`small` (exact hash set) or `large` (register array). -/
inductive HLLState where
  | small (s : Finset Nat)
  | large (regs : List Nat)
  deriving DecidableEq

/-- A fresh hybrid estimator state. -/
def hllEmpty : HLLState := .small ∅

/-- Modelled from the spec (§4.3): `insert(hash)` — extend the small set
while it stays within capacity, materializing the register array (replaying
every retained hash) the first time it would overflow; in the large state
update the hash's bucket with the maximum of its rank. -/
def hllInsert : HLLState → Nat → HLLState
  | .small s, h =>
    let s1 := insert h s
    if s1.card ≤ hllSmallCap then .small s1 else .large (regsOf s1)
  | .large r, h => .large (regsMax r (regsOf {h}))

/-- Modelled from the spec (§4.3): `merge(other)` — if either side is large
the result is large with registers combined bucket-wise by max; two small
sides stay small only while the exact union fits the capacity. -/
def hllMerge : HLLState → HLLState → HLLState
  | .small a, .small b =>
    let u := a ∪ b
    if u.card ≤ hllSmallCap then .small u else .large (regsOf u)
  | .small a, .large r => .large (regsMax (regsOf a) r)
  | .large r, .small b => .large (regsMax r (regsOf b))
  | .large r1, .large r2 => .large (regsMax r1 r2)

/-- Modelled from the spec (§4.3): `size()` — the exact cardinality in the
small state; the harmonic-mean bias-corrected estimate (clamped to a natural
number) in the large state. -/
def hllSize : HLLState → Nat
  | .small s => s.card
  | .large r =>
    let denom : ℚ := (r.map fun v => ((2 : ℚ) ^ v)⁻¹).sum
    let alpha : ℚ := (7213 / 10000) / (1 + 1079 / (1000 * 4096))
    (alpha * (4096 : ℚ) ^ 2 / denom).floor.toNat

/-- Modelled from the spec (§4.3): serialization — a `Small`/`Large` tag
followed by either the exact hash list or the register array. -/
def hllSerialize : HLLState → List Nat
  | .small s => 0 :: s.card :: s.sort (· ≤ ·)
  | .large r => 1 :: r

/-- Modelled from the spec (§4.3): deserialization — rebuild the state the
tag selects. -/
def hllDeserialize (l : List Nat) : HLLState :=
  match l with
  | 0 :: _ :: hashes => .small hashes.toFinset
  | 1 :: r => .large r
  | _ => hllEmpty

/-! ### Variadic facade (multiple arguments / tuple argument) -/

/-- The shape of one declared argument of the variadic form: a scalar column
or a tuple column with `n` elements. -/
inductive ArgKind where
  | scalar : ArgKind
  | tuple (n : Nat) : ArgKind
  deriving DecidableEq, Repr

/-- Whether an argument is a tuple. -/
def ArgKind.isTup : ArgKind → Bool
  | .tuple _ => true
  | .scalar => false

/-- Modelled from the spec: `UniqVariadicHash::apply`
(`AggregateFunctions/UniqVariadicHash.h`, not under `src/`) — §4.1: the `N`
values of one row are folded into a running 64-bit hash state in argument
order. -/
def variadicRowKey (row : List Nat) : Nat :=
  row.foldl (fun acc v => mul64 (acc ^^^ mask64 v) mixC1) 0

/-- Modelled from the spec: the setup-time validation done when the function
is constructed for a declared argument list
(`createAggregateFunctionUniq` in `AggregateFunctions/AggregateFunctionUniq.cpp`,
not under `src/`), combined with the in-source `AggregateFunctionUniqVariadic`
constructor (lines 313-320): zero arguments are rejected; a single tuple
argument contributes its element count as `num_args`; several arguments are
accepted only when none of them is a tuple, contributing their number. -/
def variadicSetup (args : List ArgKind) : Except String Nat :=
  match args with
  | [] => .error "InvalidArgument"
  | [arg] =>
    match arg with
    | .tuple n => .ok n
    | .scalar => .ok 1
  | _ => if args.any ArgKind.isTup then .error "InvalidArgument" else .ok args.length

/-- The whole variadic lifecycle over one group: construct the function from
the declared argument list, and only then feed every row through the per-row
`add` (lines 329-333), which encodes the row and inserts the key — `add`
itself is total and can signal no error. -/
def variadicProcess (args : List ArgKind) (rows : List (List Nat)) :
    Except String SamplingState :=
  match variadicSetup args with
  | .error e => .error e
  | .ok _ => .ok (rows.foldl (fun st row => samplingInsert st (variadicRowKey row)) samplingEmpty)

/-- A 64-bit IEEE-754 NaN bit pattern: exponent bits 52..62 all ones and a
nonzero mantissa payload. -/
def isNaN64 (b : Nat) : Prop := b / 2 ^ 52 % 2 ^ 11 = 2 ^ 11 - 1 ∧ b % 2 ^ 52 ≠ 0

/-! ## Helper lemmas: little-endian byte decoding -/

theorem fromLEBytes_lt (l : List Nat) (hb : ∀ b ∈ l, b < 256) :
    fromLEBytes l < 256 ^ l.length := by
  induction l with
  | nil => simp [fromLEBytes]
  | cons b bs ih =>
    have hbl : b < 256 := hb b (List.mem_cons_self b bs)
    have hr : fromLEBytes bs < 256 ^ bs.length :=
      ih fun x hx => hb x (List.mem_cons_of_mem b hx)
    simp only [fromLEBytes, List.length_cons, pow_succ]
    omega

theorem fromLEBytes_inj (l1 : List Nat) : ∀ l2 : List Nat,
    l1.length = l2.length → (∀ b ∈ l1, b < 256) → (∀ b ∈ l2, b < 256) →
    fromLEBytes l1 = fromLEBytes l2 → l1 = l2 := by
  induction l1 with
  | nil =>
    intro l2 hlen _ _ _
    exact (List.length_eq_zero.mp hlen.symm).symm
  | cons b bs ih =>
    intro l2 hlen hb1 hb2 heq
    cases l2 with
    | nil => simp at hlen
    | cons c cs =>
      have hbl : b < 256 := hb1 b (List.mem_cons_self b bs)
      have hcl : c < 256 := hb2 c (List.mem_cons_self c cs)
      simp only [fromLEBytes] at heq
      have hbc : b = c ∧ fromLEBytes bs = fromLEBytes cs := by omega
      have htail : bs = cs := by
        refine ih cs ?_ (fun x hx => hb1 x (List.mem_cons_of_mem b hx))
          (fun x hx => hb2 x (List.mem_cons_of_mem c hx)) hbc.2
        simpa using hlen
      rw [hbc.1, htail]

theorem fromLEBytes_append (l1 l2 : List Nat) :
    fromLEBytes (l1 ++ l2) = fromLEBytes l1 + 256 ^ l1.length * fromLEBytes l2 := by
  induction l1 with
  | nil => simp [fromLEBytes]
  | cons b bs ih =>
    simp only [List.cons_append, fromLEBytes, List.length_cons, pow_succ, List.append_eq, ih]
    ring

theorem pad16_length (s : List Nat) : (pad16 s).length = 16 := by
  simp [pad16]

theorem pad16_mem_lt (s : List Nat) (hb : ∀ b ∈ s, b < 256) :
    ∀ b ∈ pad16 s, b < 256 := by
  intro b hmem
  have : b ∈ s ++ List.replicate 16 0 := List.mem_of_mem_take hmem
  rcases List.mem_append.mp this with h | h
  · exact hb b h
  · have : b = 0 := List.eq_of_mem_replicate h
    omega

theorem low16_lt (s : List Nat) (hb : ∀ b ∈ s, b < 256) : low16 s < 2 ^ 64 := by
  have h1 : ((pad16 s).take 8).length = 8 := by
    simp [List.length_take, pad16_length]
  have h2 : fromLEBytes ((pad16 s).take 8) < 256 ^ ((pad16 s).take 8).length :=
    fromLEBytes_lt _ fun b hbm => pad16_mem_lt s hb b (List.mem_of_mem_take hbm)
  rw [h1] at h2
  calc low16 s < 256 ^ 8 := h2
    _ ≤ 2 ^ 64 := by norm_num

theorem high16_lt (s : List Nat) (hb : ∀ b ∈ s, b < 256) : high16 s < 2 ^ 64 := by
  have h1 : ((pad16 s).drop 8).length = 8 := by
    simp [List.length_drop, pad16_length]
  have h2 : fromLEBytes ((pad16 s).drop 8) < 256 ^ ((pad16 s).drop 8).length :=
    fromLEBytes_lt _ fun b hbm => pad16_mem_lt s hb b (List.mem_of_mem_drop hbm)
  rw [h1] at h2
  calc high16 s < 256 ^ 8 := h2
    _ ≤ 2 ^ 64 := by norm_num

theorem pad16_eq (s : List Nat) (hl : s.length ≤ 16) :
    pad16 s = s ++ List.replicate (16 - s.length) 0 := by
  rw [pad16, List.take_append_eq_append_take, List.take_of_length_le hl, List.take_replicate]
  congr 2
  omega

theorem high16_lt_2_56 (s : List Nat) (hb : ∀ b ∈ s, b < 256) (hl : s.length ≤ 15) :
    high16 s < 2 ^ 56 := by
  have h16 : 16 - s.length = (15 - s.length) + 1 := by omega
  have hX : pad16 s = (s ++ List.replicate (15 - s.length) 0) ++ [0] := by
    rw [pad16_eq s (by omega), h16, List.replicate_succ']
    simp [List.append_assoc]
  have hXlen : (s ++ List.replicate (15 - s.length) 0).length = 15 := by
    simp only [List.length_append, List.length_replicate]
    omega
  have hdrop : (pad16 s).drop 8
      = (s ++ List.replicate (15 - s.length) 0).drop 8 ++ [0] := by
    rw [hX, List.drop_append_of_le_length (by omega)]
  have hlen7 : ((s ++ List.replicate (15 - s.length) 0).drop 8).length = 7 := by
    rw [List.length_drop, hXlen]
  have hmem : ∀ b ∈ (s ++ List.replicate (15 - s.length) 0).drop 8, b < 256 := by
    intro b hbm
    rcases List.mem_append.mp (List.mem_of_mem_drop hbm) with h | h
    · exact hb b h
    · have := List.eq_of_mem_replicate h
      omega
  have h1 := fromLEBytes_lt _ hmem
  rw [hlen7] at h1
  rw [high16, hdrop, fromLEBytes_append, hlen7]
  simp only [fromLEBytes]
  have h2 : (256 : Nat) ^ 7 = 2 ^ 56 := by norm_num
  omega

/-! ## Helper lemmas: the finalizing mix is bijective on the low half -/

theorem shiftRight_xor_distrib (a b n : Nat) :
    (a ^^^ b) >>> n = a >>> n ^^^ b >>> n := by
  apply Nat.eq_of_testBit_eq
  intro i
  simp [Nat.testBit_shiftRight, Nat.testBit_xor]

theorem mixStep_lt {x : Nat} (hx : x < 2 ^ 64) : mixStep x < 2 ^ 64 := by
  apply Nat.xor_lt_two_pow hx
  calc x >>> 33 ≤ x := by
        rw [Nat.shiftRight_eq_div_pow]
        exact Nat.div_le_self _ _
    _ < 2 ^ 64 := hx

theorem mixStep_invol {x : Nat} (hx : x < 2 ^ 64) : mixStep (mixStep x) = x := by
  unfold mixStep
  rw [shiftRight_xor_distrib]
  have h66 : x >>> 33 >>> 33 = 0 := by
    rw [Nat.shiftRight_eq_div_pow, Nat.shiftRight_eq_div_pow, Nat.div_div_eq_div_mul]
    exact Nat.div_eq_of_lt (lt_of_lt_of_le hx (by norm_num))
  rw [h66, Nat.xor_zero, Nat.xor_cancel_right]

theorem mixStep_injOn {x y : Nat} (hx : x < 2 ^ 64) (hy : y < 2 ^ 64)
    (h : mixStep x = mixStep y) : x = y := by
  rw [← mixStep_invol hx, ← mixStep_invol hy, h]

theorem mul64_lt (a b : Nat) : mul64 a b < 2 ^ 64 :=
  Nat.mod_lt _ (by norm_num)

theorem mul64_cancel {c : Nat} (hc : Nat.gcd (2 ^ 64) c = 1) {x y : Nat}
    (hx : x < 2 ^ 64) (hy : y < 2 ^ 64) (h : mul64 x c = mul64 y c) : x = y := by
  have h2 : x * c ≡ y * c [MOD 2 ^ 64] := h
  have h3 : x ≡ y [MOD 2 ^ 64] := Nat.ModEq.cancel_right_of_coprime hc h2
  rw [Nat.ModEq, Nat.mod_eq_of_lt hx, Nat.mod_eq_of_lt hy] at h3
  exact h3

theorem gcd_mixC1 : Nat.gcd (2 ^ 64) mixC1 = 1 := by decide

theorem gcd_mixC2 : Nat.gcd (2 ^ 64) mixC2 = 1 := by decide

theorem xor_lt64 {a b : Nat} (ha : a < 2 ^ 64) (hb : b < 2 ^ 64) : a ^^^ b < 2 ^ 64 :=
  Nat.xor_lt_two_pow ha hb

theorem embedMix_inj {x y high : Nat} (hx : x < 2 ^ 64) (hy : y < 2 ^ 64)
    (hh : high < 2 ^ 64) (heq : embedMix x high = embedMix y high) : x = y := by
  unfold embedMix at heq
  have s1 : mul64 (mixStep (mul64 (mixStep x) mixC1 ^^^ high)) mixC2
      = mul64 (mixStep (mul64 (mixStep y) mixC1 ^^^ high)) mixC2 :=
    mixStep_injOn (mul64_lt _ _) (mul64_lt _ _) heq
  have hx1 : mul64 (mixStep x) mixC1 ^^^ high < 2 ^ 64 := xor_lt64 (mul64_lt _ _) hh
  have hy1 : mul64 (mixStep y) mixC1 ^^^ high < 2 ^ 64 := xor_lt64 (mul64_lt _ _) hh
  have s2 : mixStep (mul64 (mixStep x) mixC1 ^^^ high)
      = mixStep (mul64 (mixStep y) mixC1 ^^^ high) :=
    mul64_cancel gcd_mixC2 (mixStep_lt hx1) (mixStep_lt hy1) s1
  have s3 : mul64 (mixStep x) mixC1 ^^^ high = mul64 (mixStep y) mixC1 ^^^ high :=
    mixStep_injOn hx1 hy1 s2
  have s4 : mul64 (mixStep x) mixC1 = mul64 (mixStep y) mixC1 := by
    have := congrArg (fun t => t ^^^ high) s3
    simpa [Nat.xor_cancel_right] using this
  have s5 : mixStep x = mixStep y :=
    mul64_cancel gcd_mixC1 (mixStep_lt hx) (mixStep_lt hy) s4
  exact mixStep_injOn hx hy s5

/-! ## Claims C1 - C4 -/

/-- C1 (counterexample): the claim that the exact-path key encoder is
injective on all strings of byte length at most 15 is false on the code: the
two distinct strings `"a"` and `"a\x00"` (bytes `[97]` and `[97, 0]`, lengths
1 and 2) are zero-padded to the same 16-byte buffer and therefore receive the
same 128-bit surrogate key. -/
theorem spec_c1_counterexample :
    uniqExactStringKeySSSE3 [97] = uniqExactStringKeySSSE3 [97, 0]
      ∧ [97] ≠ [97, 0]
      ∧ List.length [97] ≤ 15 ∧ List.length [97, 0] ≤ 15 := by
  refine ⟨by decide, by decide, by decide, by decide⟩

/-- C1 (amended): for strings of byte length at most 15, the exact-path key
encoder identifies exactly the strings with the same 16-byte zero-padded
buffer: two such strings receive equal 128-bit surrogate keys if and only if
their zero-padded buffers are equal (so the encoder is injective up to
trailing zero padding, the multiply-xor-shift mix itself being bijective). -/
theorem spec_c1_theorem (s1 s2 : List Nat)
    (hb1 : ∀ b ∈ s1, b < 256) (hb2 : ∀ b ∈ s2, b < 256)
    (hl1 : s1.length ≤ 15) (hl2 : s2.length ≤ 15) :
    uniqExactStringKeySSSE3 s1 = uniqExactStringKeySSSE3 s2 ↔ pad16 s1 = pad16 s2 := by
  rw [uniqExactStringKeySSSE3, uniqExactStringKeySSSE3, if_pos hl1, if_pos hl2]
  constructor
  · intro h
    simp only [UInt128.mk.injEq] at h
    have hhigh : high16 s1 = high16 s2 := h.2
    have hlow : low16 s1 = low16 s2 := by
      have h1 := h.1
      rw [hhigh] at h1
      exact embedMix_inj (low16_lt s1 hb1) (low16_lt s2 hb2) (high16_lt s2 hb2) h1
    have htake : (pad16 s1).take 8 = (pad16 s2).take 8 := by
      refine fromLEBytes_inj _ _ ?_ ?_ ?_ hlow
      · simp [List.length_take, pad16_length]
      · exact fun b hbm => pad16_mem_lt s1 hb1 b (List.mem_of_mem_take hbm)
      · exact fun b hbm => pad16_mem_lt s2 hb2 b (List.mem_of_mem_take hbm)
    have hdrop : (pad16 s1).drop 8 = (pad16 s2).drop 8 := by
      refine fromLEBytes_inj _ _ ?_ ?_ ?_ hhigh
      · simp [List.length_drop, pad16_length]
      · exact fun b hbm => pad16_mem_lt s1 hb1 b (List.mem_of_mem_drop hbm)
      · exact fun b hbm => pad16_mem_lt s2 hb2 b (List.mem_of_mem_drop hbm)
    calc pad16 s1 = (pad16 s1).take 8 ++ (pad16 s1).drop 8 := (List.take_append_drop _ _).symm
      _ = (pad16 s2).take 8 ++ (pad16 s2).drop 8 := by rw [htake, hdrop]
      _ = pad16 s2 := List.take_append_drop _ _
  · intro h
    have hlow : low16 s1 = low16 s2 := by rw [low16, low16, h]
    have hhigh : high16 s1 = high16 s2 := by rw [high16, high16, h]
    rw [hlow, hhigh]

/-- C1 (witness): the amended theorem applied to the concrete distinct
strings `[1]` and `[2]`. -/
theorem spec_c1_witness :
    uniqExactStringKeySSSE3 [1] = uniqExactStringKeySSSE3 [2] ↔ pad16 [1] = pad16 [2] :=
  spec_c1_theorem [1] [2] (by decide) (by decide) (by decide) (by decide)

/-- C2: the claim that the portable (non-SSSE3) path produces keys
bit-identical to the SSSE3 fast path is false on the code: for the one-byte
string `"a"` the portable path (which, lacking the preprocessor-guarded short
string branch and tag-bit line, always emits the plain 128-bit hash) yields a
different key than the SSSE3 embedded key. -/
theorem spec_c2_theorem :
    uniqExactStringKeyPortable [97] ≠ uniqExactStringKeySSSE3 [97]
      ∧ (uniqExactStringKeySSSE3 [97]).high = 0 := by
  refine ⟨by decide, by decide⟩

/-- C3: a string of at most 15 bytes and a string of more than 15 bytes can
never receive the same exact-path surrogate key: the embedded key leaves the
top bit of the high 64 bits clear (the padded buffer's top byte is zero),
while the hashed key has that bit forced to one. -/
theorem spec_c3_theorem (s1 s2 : List Nat)
    (hb1 : ∀ b ∈ s1, b < 256) (hb2 : ∀ b ∈ s2, b < 256)
    (hl1 : s1.length ≤ 15) (hl2 : 15 < s2.length) :
    uniqExactStringKeySSSE3 s1 ≠ uniqExactStringKeySSSE3 s2 := by
  rw [uniqExactStringKeySSSE3, uniqExactStringKeySSSE3, if_pos hl1, if_neg (by omega)]
  intro h
  simp only [UInt128.mk.injEq] at h
  have hhigh := h.2
  have hlt : high16 s1 < 2 ^ 63 :=
    lt_trans (high16_lt_2_56 s1 hb1 hl1) (by norm_num)
  have hfalse : (high16 s1).testBit 63 = false := Nat.testBit_lt_two_pow hlt
  have htrue : ((sipHash128Bytes s2).high ||| tagBit).testBit 63 = true := by
    rw [Nat.testBit_or]
    have : tagBit.testBit 63 = true := by decide
    rw [this, Bool.or_true]
  rw [← hhigh, hfalse] at htrue
  exact Bool.false_ne_true htrue

/-- C3 (witness): the theorem applied to the concrete strings `"a"` and a
16-byte string. -/
theorem spec_c3_witness :
    uniqExactStringKeySSSE3 [97]
      ≠ uniqExactStringKeySSSE3 [1, 2, 3, 4, 5, 6, 7, 8, 9, 10, 11, 12, 13, 14, 15, 16] :=
  spec_c3_theorem _ _ (by decide) (by decide) (by decide) (by decide)

/-- C4: inserting the byte strings "a","a","b","c","bb","b" into a fresh
exact estimator and finalizing yields 4; inserting "a","a","b" into one fresh
estimator and "c","bb","b" into another, merging, and finalizing also
yields 4. -/
theorem spec_c4_theorem :
    exactSize (exactStringAddAll ∅
        [[97], [97], [98], [99], [98, 98], [98]]) = 4
      ∧ exactSize (exactMerge
          (exactStringAddAll ∅ [[97], [97], [98]])
          (exactStringAddAll ∅ [[99], [98, 98], [98]])) = 4 := by
  refine ⟨by decide, by decide⟩

/-! ## Helper lemmas: merge algebra of the estimator models -/

theorem mod_pow_zero_mono {d d' x : Nat} (hdd : d ≤ d') (h : x % 2 ^ d' = 0) :
    x % 2 ^ d = 0 := by
  have h2 : (2 : Nat) ^ d' ∣ x := Nat.dvd_of_mod_eq_zero h
  have h3 : (2 : Nat) ^ d ∣ x := dvd_trans (pow_dvd_pow 2 hdd) h2
  exact Nat.mod_eq_zero_of_dvd h3

theorem samplingState_ext {a b : SamplingState}
    (h1 : a.skipDegree = b.skipDegree) (h2 : a.retained = b.retained) : a = b := by
  cases a
  cases b
  simp_all

theorem samplingMerge_comm (a b : SamplingState) :
    samplingMerge a b = samplingMerge b a := by
  apply samplingState_ext
  · show max a.skipDegree b.skipDegree = max b.skipDegree a.skipDegree
    exact Nat.max_comm _ _
  · show (a.retained ∪ b.retained).filter _ = (b.retained ∪ a.retained).filter _
    rw [Finset.union_comm, Nat.max_comm a.skipDegree b.skipDegree]

theorem samplingMerge_assoc (a b c : SamplingState) :
    samplingMerge (samplingMerge a b) c = samplingMerge a (samplingMerge b c) := by
  have hM : max (max a.skipDegree b.skipDegree) c.skipDegree
      = max a.skipDegree (max b.skipDegree c.skipDegree) := Nat.max_assoc _ _ _
  apply samplingState_ext
  · exact hM
  · show (((a.retained ∪ b.retained).filter
        (fun x => x % 2 ^ max a.skipDegree b.skipDegree = 0) ∪ c.retained).filter
          fun x => x % 2 ^ max (max a.skipDegree b.skipDegree) c.skipDegree = 0)
      = ((a.retained ∪ (b.retained ∪ c.retained).filter
        (fun x => x % 2 ^ max b.skipDegree c.skipDegree = 0)).filter
          fun x => x % 2 ^ max a.skipDegree (max b.skipDegree c.skipDegree) = 0)
    ext x
    simp only [Finset.mem_filter, Finset.mem_union, hM]
    constructor
    · rintro ⟨⟨hA | hB, _⟩ | hC, hm⟩
      · exact ⟨Or.inl hA, hm⟩
      · refine ⟨Or.inr ⟨Or.inl hB, ?_⟩, hm⟩
        exact mod_pow_zero_mono (by omega) hm
      · refine ⟨Or.inr ⟨Or.inr hC, ?_⟩, hm⟩
        exact mod_pow_zero_mono (by omega) hm
    · rintro ⟨hA | ⟨hB | hC, _⟩, hm⟩
      · refine ⟨Or.inl ⟨Or.inl hA, ?_⟩, hm⟩
        exact mod_pow_zero_mono (by omega) hm
      · refine ⟨Or.inl ⟨Or.inr hB, ?_⟩, hm⟩
        exact mod_pow_zero_mono (by omega) hm
      · exact ⟨Or.inr hC, hm⟩

theorem zipWith_max_comm (l1 : List Nat) : ∀ l2 : List Nat,
    List.zipWith max l1 l2 = List.zipWith max l2 l1 := by
  induction l1 with
  | nil => intro l2; cases l2 <;> simp
  | cons a t ih =>
    intro l2
    cases l2 with
    | nil => simp
    | cons b u => simp [Nat.max_comm, ih]

theorem zipWith_max_assoc (l1 : List Nat) : ∀ l2 l3 : List Nat,
    List.zipWith max (List.zipWith max l1 l2) l3
      = List.zipWith max l1 (List.zipWith max l2 l3) := by
  induction l1 with
  | nil => intro l2 l3; simp
  | cons a t ih =>
    intro l2 l3
    cases l2 with
    | nil => simp
    | cons b u =>
      cases l3 with
      | nil => simp
      | cons c v => simp [Nat.max_assoc, ih]

theorem zipWith_map_same {α β : Type} (f : β → β → β) (g h : α → β) (l : List α) :
    List.zipWith f (l.map g) (l.map h) = l.map fun x => f (g x) (h x) := by
  induction l with
  | nil => rfl
  | cons a t ih => simp [ih]

theorem regsOf_union (a b : Finset Nat) :
    regsOf (a ∪ b) = regsMax (regsOf a) (regsOf b) := by
  unfold regsOf regsMax
  rw [zipWith_map_same]
  apply List.map_congr_left
  intro bkt _
  rw [Finset.filter_union, Finset.sup_union, sup_eq_max]

theorem hllMerge_small_small (A B : Finset Nat) :
    hllMerge (.small A) (.small B)
      = if (A ∪ B).card ≤ hllSmallCap then .small (A ∪ B) else .large (regsOf (A ∪ B)) := rfl

theorem hllMerge_small_large (A : Finset Nat) (r : List Nat) :
    hllMerge (.small A) (.large r) = .large (regsMax (regsOf A) r) := rfl

theorem hllMerge_large_small (r : List Nat) (B : Finset Nat) :
    hllMerge (.large r) (.small B) = .large (regsMax r (regsOf B)) := rfl

theorem hllMerge_large_large (r1 r2 : List Nat) :
    hllMerge (.large r1) (.large r2) = .large (regsMax r1 r2) := rfl

theorem hllMerge_comm (x y : HLLState) : hllMerge x y = hllMerge y x := by
  cases x with
  | small A =>
    cases y with
    | small B =>
      rw [hllMerge_small_small, hllMerge_small_small, Finset.union_comm]
    | large r =>
      rw [hllMerge_small_large, hllMerge_large_small, regsMax, regsMax, zipWith_max_comm]
  | large r =>
    cases y with
    | small B =>
      rw [hllMerge_small_large, hllMerge_large_small, regsMax, regsMax, zipWith_max_comm]
    | large r2 =>
      rw [hllMerge_large_large, hllMerge_large_large, regsMax, regsMax, zipWith_max_comm]

theorem card_union_left_le (A B C : Finset Nat) (h : ¬ (A ∪ B).card ≤ hllSmallCap) :
    ¬ (A ∪ B ∪ C).card ≤ hllSmallCap := by
  intro h2
  exact h (le_trans (Finset.card_le_card Finset.subset_union_left) h2)

theorem card_union_right_le (A B C : Finset Nat) (h : ¬ (B ∪ C).card ≤ hllSmallCap) :
    ¬ (A ∪ (B ∪ C)).card ≤ hllSmallCap := by
  intro h2
  exact h (le_trans (Finset.card_le_card Finset.subset_union_right) h2)

theorem regsMax_assoc (r1 r2 r3 : List Nat) :
    regsMax (regsMax r1 r2) r3 = regsMax r1 (regsMax r2 r3) := by
  unfold regsMax
  exact zipWith_max_assoc r1 r2 r3

theorem hllMerge_assoc (x y z : HLLState) :
    hllMerge (hllMerge x y) z = hllMerge x (hllMerge y z) := by
  cases x with
  | small A =>
    cases y with
    | small B =>
      cases z with
      | small C =>
        rw [hllMerge_small_small A B, hllMerge_small_small B C,
          apply_ite (fun s => hllMerge s (HLLState.small C)),
          apply_ite (fun s => hllMerge (HLLState.small A) s),
          hllMerge_small_small (A ∪ B) C, hllMerge_small_small A (B ∪ C),
          hllMerge_large_small, hllMerge_small_large,
          ← regsOf_union (A ∪ B) C, ← regsOf_union A (B ∪ C),
          Finset.union_assoc]
        by_cases hab : (A ∪ B).card ≤ hllSmallCap
        · by_cases hbc : (B ∪ C).card ≤ hllSmallCap
          · rw [if_pos hab, if_pos hbc]
          · rw [if_pos hab, if_neg hbc, if_neg (card_union_right_le A B C hbc)]
        · by_cases hbc : (B ∪ C).card ≤ hllSmallCap
          · rw [if_neg hab, if_pos hbc,
              if_neg (Finset.union_assoc A B C ▸ card_union_left_le A B C hab)]
          · rw [if_neg hab, if_neg hbc]
      | large r =>
        rw [hllMerge_small_small A B, hllMerge_small_large B r,
          apply_ite (fun s => hllMerge s (HLLState.large r)),
          hllMerge_small_large (A ∪ B) r, hllMerge_large_large, ite_self,
          hllMerge_small_large A, regsOf_union, regsMax_assoc]
    | large r =>
      cases z with
      | small C =>
        rw [hllMerge_small_large A r, hllMerge_large_small r C,
          hllMerge_large_small, hllMerge_small_large A, regsMax_assoc]
      | large r2 =>
        rw [hllMerge_small_large A r, hllMerge_large_large r r2,
          hllMerge_large_large, hllMerge_small_large A, regsMax_assoc]
  | large r =>
    cases y with
    | small B =>
      cases z with
      | small C =>
        rw [hllMerge_large_small r B, hllMerge_small_small B C,
          apply_ite (fun s => hllMerge (HLLState.large r) s),
          hllMerge_large_small (regsMax r (regsOf B)) C,
          hllMerge_large_small r (B ∪ C), hllMerge_large_large, ite_self,
          regsOf_union, regsMax_assoc]
      | large r2 =>
        rw [hllMerge_large_small r B, hllMerge_small_large B r2,
          hllMerge_large_large, hllMerge_large_large, regsMax_assoc]
    | large r2 =>
      cases z with
      | small C =>
        rw [hllMerge_large_large r r2, hllMerge_large_small r2 C,
          hllMerge_large_small, hllMerge_large_large, regsMax_assoc]
      | large r3 =>
        rw [hllMerge_large_large r r2, hllMerge_large_large r2 r3,
          hllMerge_large_large, hllMerge_large_large, regsMax_assoc]

/-! ## Claim C5 -/

/-- C5: the exact estimator's merge is set union — idempotent, commutative
and associative, so all three groupings of three states have equal size; for
the approximate estimator models (sampling and hybrid), merge is commutative
and associative as a state transformer, so the merged states are identical
(hence bit-identical) regardless of grouping or order. -/
theorem spec_c5_theorem :
    (∀ A B C : Finset UInt128,
        exactMerge A A = A
        ∧ exactMerge A B = exactMerge B A
        ∧ exactMerge (exactMerge A B) C = exactMerge A (exactMerge B C)
        ∧ exactSize (exactMerge (exactMerge A B) C)
            = exactSize (exactMerge A (exactMerge B C))
        ∧ exactSize (exactMerge (exactMerge A C) B)
            = exactSize (exactMerge A (exactMerge B C)))
    ∧ (∀ a b c : SamplingState,
        samplingMerge a b = samplingMerge b a
        ∧ samplingMerge (samplingMerge a b) c = samplingMerge a (samplingMerge b c)
        ∧ samplingMerge (samplingMerge a c) b = samplingMerge (samplingMerge a b) c)
    ∧ (∀ x y z : HLLState,
        hllMerge x y = hllMerge y x
        ∧ hllMerge (hllMerge x y) z = hllMerge x (hllMerge y z)
        ∧ hllMerge (hllMerge x z) y = hllMerge (hllMerge x y) z) := by
  refine ⟨fun A B C => ?_, fun a b c => ?_, fun x y z => ?_⟩
  · refine ⟨Finset.union_self A, Finset.union_comm A B, Finset.union_assoc A B C, ?_, ?_⟩
    · rw [exactMerge, exactMerge, exactMerge, exactMerge, Finset.union_assoc]
    · rw [exactMerge, exactMerge, exactMerge, exactMerge, Finset.union_assoc,
        Finset.union_comm C B]
  · refine ⟨samplingMerge_comm a b, samplingMerge_assoc a b c, ?_⟩
    rw [samplingMerge_assoc a c b, samplingMerge_assoc a b c, samplingMerge_comm c b]
  · refine ⟨hllMerge_comm x y, hllMerge_assoc x y z, ?_⟩
    rw [hllMerge_assoc x z y, hllMerge_assoc x y z, hllMerge_comm z y]

/-! ## Helper lemmas: serialization round trips -/

theorem samplingRoundTrip (st : SamplingState) :
    samplingDeserialize (samplingSerialize st) = st := by
  rcases st with ⟨d, r⟩
  show (⟨d, (r.sort (· ≤ ·)).toFinset⟩ : SamplingState) = ⟨d, r⟩
  rw [Finset.sort_toFinset]

theorem hllRoundTrip (st : HLLState) :
    hllDeserialize (hllSerialize st) = st := by
  cases st with
  | small s =>
    show HLLState.small ((s.sort (· ≤ ·)).toFinset) = HLLState.small s
    rw [Finset.sort_toFinset]
  | large r => rfl

theorem keyDecode_encode {k : UInt128} (hk : k.low < 2 ^ 64) :
    keyDecode (keyEncode k) = k := by
  rcases k with ⟨lo, hi⟩
  simp only [keyEncode, keyDecode] at *
  have h1 : (lo + 2 ^ 64 * hi) % 2 ^ 64 = lo := by
    rw [Nat.add_mul_mod_self_left, Nat.mod_eq_of_lt hk]
  have h2 : (lo + 2 ^ 64 * hi) / 2 ^ 64 = hi := by
    rw [Nat.add_mul_div_left _ _ (by norm_num : (0:Nat) < 2 ^ 64),
      Nat.div_eq_of_lt hk, Nat.zero_add]
  rw [h1, h2]

theorem list_toFinset_map {α β : Type} [DecidableEq α] [DecidableEq β]
    (f : α → β) (l : List α) : (l.map f).toFinset = l.toFinset.image f := by
  induction l with
  | nil => simp
  | cons a t ih => simp [ih]

theorem exactRoundTrip (st : Finset UInt128) (hwf : ∀ k ∈ st, k.low < 2 ^ 64) :
    exactDeserialize (exactSerialize st) = st := by
  show (((st.image keyEncode).sort (· ≤ ·)).map keyDecode).toFinset = st
  rw [list_toFinset_map, Finset.sort_toFinset, Finset.image_image]
  have himg : st.image (keyDecode ∘ keyEncode) = st.image id :=
    Finset.image_congr fun k hk => keyDecode_encode (hwf k (Finset.mem_coe.mp hk))
  rw [himg, Finset.image_id]

/-! ## Claim C6 -/

/-- C6: for every estimator variant, deserializing the serialization of a
(well-formed) state reproduces the state itself — hence a state with
identical size and identical subsequent merge behavior against any third
state. -/
theorem spec_c6_theorem :
    (∀ st : SamplingState,
        samplingDeserialize (samplingSerialize st) = st
        ∧ samplingSize (samplingDeserialize (samplingSerialize st)) = samplingSize st
        ∧ ∀ t, samplingMerge (samplingDeserialize (samplingSerialize st)) t
            = samplingMerge st t)
    ∧ (∀ st : HLLState,
        hllDeserialize (hllSerialize st) = st
        ∧ hllSize (hllDeserialize (hllSerialize st)) = hllSize st
        ∧ ∀ t, hllMerge (hllDeserialize (hllSerialize st)) t = hllMerge st t)
    ∧ (∀ st : Finset UInt128, (∀ k ∈ st, k.low < 2 ^ 64) →
        exactDeserialize (exactSerialize st) = st
        ∧ exactSize (exactDeserialize (exactSerialize st)) = exactSize st
        ∧ ∀ t, exactMerge (exactDeserialize (exactSerialize st)) t = exactMerge st t) := by
  refine ⟨fun st => ?_, fun st => ?_, fun st hwf => ?_⟩
  · have h := samplingRoundTrip st
    exact ⟨h, by rw [h], fun t => by rw [h]⟩
  · have h := hllRoundTrip st
    exact ⟨h, by rw [h], fun t => by rw [h]⟩
  · have h := exactRoundTrip st hwf
    exact ⟨h, by rw [h], fun t => by rw [h]⟩

/-- C6 (witness): the round trip instantiated at the concrete well-formed
one-key exact state `{⟨1, 2⟩}`. -/
theorem spec_c6_witness :
    exactDeserialize (exactSerialize {(⟨1, 2⟩ : UInt128)}) = {(⟨1, 2⟩ : UInt128)} :=
  ((spec_c6_theorem.2.2 {(⟨1, 2⟩ : UInt128)}) (by decide)).1

/-! ## Claims C7 - C10 -/

/-- C7: the approximate-path key encoder for a single numeric column: an
integer of at most 64 bits maps to its own 64-bit value; a Float32 or
Float64 maps to exactly its bit pattern reinterpreted as an integer (no
rounding, NaN payloads preserved); a 128-bit value maps to the fixed
64-bit cryptographic digest. -/
theorem spec_c7_theorem :
    (∀ v : Nat, v < 2 ^ 64 → uniqTraitsHash (.intv v) = v)
    ∧ (∀ bits : Nat,
        uniqTraitsHash (.f32 bits) = bits ∧ uniqTraitsHash (.f64 bits) = bits)
    ∧ (∀ lo hi : Nat, uniqTraitsHash (.u128 lo hi) = sipHash64U128 lo hi) := by
  refine ⟨fun v hv => ?_, fun bits => ⟨rfl, rfl⟩, fun lo hi => rfl⟩
  show v % 2 ^ 64 = v
  exact Nat.mod_eq_of_lt hv

/-- C7 (witness): the integer clause instantiated at the value 42. -/
theorem spec_c7_witness : uniqTraitsHash (.intv 42) = 42 :=
  spec_c7_theorem.1 42 (by decide)

/-- C8: a variadic call with zero arguments, or mixing a tuple argument with
additional arguments, fails with `InvalidArgument` at setup — the whole
lifecycle errors out identically for every row list, before any row is
consumed; with a valid setup the per-row `add` phase is total and never
produces an error. -/
theorem spec_c8_theorem :
    (∀ rows, variadicProcess [] rows = .error "InvalidArgument")
    ∧ (∀ args rows, 2 ≤ args.length → args.any ArgKind.isTup = true →
        variadicProcess args rows = .error "InvalidArgument")
    ∧ (∀ args n, variadicSetup args = .ok n → ∀ rows,
        variadicProcess args rows
          = .ok (rows.foldl (fun st row => samplingInsert st (variadicRowKey row))
              samplingEmpty)) := by
  refine ⟨fun rows => rfl, ?_, ?_⟩
  · intro args rows hlen htup
    rcases args with _ | ⟨a, _ | ⟨b, t⟩⟩
    · simp at hlen
    · simp at hlen
    · have hsetup : variadicSetup (a :: b :: t) = .error "InvalidArgument" := by
        show (if (a :: b :: t).any ArgKind.isTup
            then (.error "InvalidArgument" : Except String Nat)
            else .ok (a :: b :: t).length) = .error "InvalidArgument"
        rw [if_pos htup]
      unfold variadicProcess
      rw [hsetup]
  · intro args n hok rows
    unfold variadicProcess
    rw [hok]

/-- C8 (witness): the three clauses at concrete argument lists — a tuple
mixed with a scalar, the empty argument list, and a valid two-scalar list. -/
theorem spec_c8_witness :
    variadicProcess [ArgKind.tuple 2, ArgKind.scalar] [[1, 2]] = .error "InvalidArgument"
      ∧ variadicProcess [] [[1, 2]] = .error "InvalidArgument"
      ∧ variadicProcess [ArgKind.scalar, ArgKind.scalar] [[1, 2]]
          = .ok ([[1, 2]].foldl (fun st row => samplingInsert st (variadicRowKey row))
              samplingEmpty) :=
  ⟨spec_c8_theorem.2.1 [ArgKind.tuple 2, ArgKind.scalar] [[1, 2]] (by decide) (by decide),
   spec_c8_theorem.1 [[1, 2]],
   spec_c8_theorem.2.2 [ArgKind.scalar, ArgKind.scalar] 2 rfl [[1, 2]]⟩

/-- The numeric exact estimator accumulates exactly the set of raw input
values. -/
theorem exactNumAddAll_eq_union (xs : List Nat) : ∀ s : Finset Nat,
    exactNumAddAll s xs = s ∪ xs.toFinset := by
  induction xs with
  | nil => intro s; simp [exactNumAddAll]
  | cons a t ih =>
    intro s
    show exactNumAddAll (exactNumAdd s a) t = _
    rw [ih (exactNumAdd s a), exactNumAdd, List.toFinset_cons,
      Finset.insert_union, Finset.union_insert]

/-- C9: for a non-string numeric column the exact estimator's `add` inserts
the raw column value itself (no hash applied to the stored key), so the state
after any input sequence is exactly the set of distinct input values and
`finalize` returns exactly their number — zero error on every input. -/
theorem spec_c9_theorem (xs : List Nat) :
    exactNumAddAll ∅ xs = xs.toFinset
      ∧ exactSize (exactNumAddAll ∅ xs) = xs.toFinset.card := by
  have h := exactNumAddAll_eq_union xs ∅
  rw [Finset.empty_union] at h
  exact ⟨h, by rw [exactSize, h]⟩

/-- Unfolding `hllInsert` on a small state. -/
theorem hllInsert_small (s : Finset Nat) (h : Nat) :
    hllInsert (.small s) h
      = if (insert h s).card ≤ hllSmallCap then .small (insert h s)
        else .large (regsOf (insert h s)) := rfl

/-- Unfolding `samplingInsert` on a state of skip degree zero. -/
theorem samplingInsert_degree_zero (r : Finset Nat) (h : Nat) :
    samplingInsert ⟨0, r⟩ h
      = if samplingMaxSize < (insert h r).card
        then ⟨1, (insert h r).filter fun x => x % 2 ^ 1 = 0⟩
        else ⟨0, insert h r⟩ := by
  unfold samplingInsert
  rw [if_pos (show h % 2 ^ (0 : Nat) = 0 by rw [pow_zero]; exact Nat.mod_one h)]

/-- C10: under the approximate estimators floating-point values are
distinguished by exact bit pattern: +0.0 (bits 0) and -0.0 (bits `2 ^ 63`)
are counted as two distinct values by both the uniq and uniqHLL12 models,
and any two NaN bit patterns differing in payload receive different keys and
are likewise counted as two distinct values. -/
theorem spec_c10_theorem :
    (samplingSize (samplingInsert (samplingInsert samplingEmpty
          (uniqTraitsHash (.f64 0))) (uniqTraitsHash (.f64 (2 ^ 63)))) = 2
      ∧ hllSize (hllInsert (hllInsert hllEmpty
          (uniqTraitsHash (.f64 0))) (uniqTraitsHash (.f64 (2 ^ 63)))) = 2)
    ∧ (∀ b1 b2 : Nat, isNaN64 b1 → isNaN64 b2 → b1 ≠ b2 →
        uniqTraitsHash (.f64 b1) ≠ uniqTraitsHash (.f64 b2)
        ∧ samplingSize (samplingInsert (samplingInsert samplingEmpty
            (uniqTraitsHash (.f64 b1))) (uniqTraitsHash (.f64 b2))) = 2
        ∧ hllSize (hllInsert (hllInsert hllEmpty
            (uniqTraitsHash (.f64 b1))) (uniqTraitsHash (.f64 b2))) = 2) := by
  constructor
  · exact ⟨by decide, by decide⟩
  · intro b1 b2 _ _ hne
    have hkey : uniqTraitsHash (.f64 b1) = b1 := rfl
    have hkey2 : uniqTraitsHash (.f64 b2) = b2 := rfl
    have hnotmem : b2 ∉ ({b1} : Finset Nat) := by
      simp only [Finset.mem_singleton]
      exact fun h => hne h.symm
    have hcard : (insert b2 ({b1} : Finset Nat)).card = 2 := by
      rw [Finset.card_insert_of_not_mem hnotmem, Finset.card_singleton]
    refine ⟨by rw [hkey, hkey2]; exact hne, ?_, ?_⟩
    · rw [hkey, hkey2]
      have h1 : samplingInsert samplingEmpty b1 = ⟨0, {b1}⟩ := by
        rw [samplingEmpty, samplingInsert_degree_zero]
        rw [if_neg (show ¬ samplingMaxSize < (insert b1 (∅ : Finset Nat)).card by
          rw [insert_emptyc_eq, Finset.card_singleton]; decide)]
        rw [insert_emptyc_eq]
      rw [h1, samplingInsert_degree_zero, if_neg (by rw [hcard]; decide)]
      show (insert b2 ({b1} : Finset Nat)).card = 2
      exact hcard
    · rw [hkey, hkey2]
      have h1 : hllInsert hllEmpty b1 = .small {b1} := by
        rw [hllEmpty, hllInsert_small]
        rw [if_pos (show (insert b1 (∅ : Finset Nat)).card ≤ hllSmallCap by
          rw [insert_emptyc_eq, Finset.card_singleton]; decide)]
        rw [insert_emptyc_eq]
      rw [h1, hllInsert_small, if_pos (by rw [hcard]; decide)]
      show (insert b2 ({b1} : Finset Nat)).card = 2
      exact hcard

/-- C10 (witness): the NaN clause instantiated at the two NaN bit patterns
`0x7ff0000000000001` and `0x7ff0000000000002`. -/
theorem spec_c10_witness :
    uniqTraitsHash (.f64 0x7ff0000000000001) ≠ uniqTraitsHash (.f64 0x7ff0000000000002) :=
  (spec_c10_theorem.2 0x7ff0000000000001 0x7ff0000000000002
    (by constructor <;> decide) (by constructor <;> decide) (by decide)).1

end ClickHouseUniq
